import Mathlib

/-!
Verification development for the embedding pipeline of the `llpm` repository.

The pipeline lives in two near-identical files:
`src/docker/embeddings/src/server.py` (FastAPI `/embeddings` handler) and
`src/scripts/embeddings/generate.py` (standalone CLI).  Both
partition the input texts into contiguous sub-batches of `batch_size`
(the Python loop `for i in range(0, len(texts), batch_size)`),
tokenize each sub-batch with padding to the longest member and truncation
at 512 tokens, run the model, apply attention-mask-weighted mean pooling
(clamping the divisor at 1e-9), L2-normalize (torch `F.normalize`, whose
denominator is the norm clamped below at its default eps 1e-12), and
concatenate the results in order.

The tokenizer and transformer model are external capabilities
(`transformers` / `torch`); they are embedded as a `Handle` record.  The
model's forward pass is per-sequence within a batch (a transformer
processes the rows of a batch independently), and is allowed to fail
(`Except String`) to model runtime faults such as out-of-memory.
Floating-point tensor arithmetic is idealized as exact real arithmetic.
Python exceptions are `Except String`; HTTP error responses and the CLI
error object / exit code are explicit result types.
-/

noncomputable section

/-- Scale a vector by a scalar (torch elementwise `mask * hidden` with a
broadcast scalar row). -/
def vscale (c : ℝ) (v : List ℝ) : List ℝ := v.map fun x => c * x

/-- Componentwise sum of two vectors (torch elementwise `+`). -/
def vadd (u v : List ℝ) : List ℝ := List.zipWith (fun a b => a + b) u v

/-- The zero vector of dimension `d`. -/
def vzero (d : ℕ) : List ℝ := List.replicate d 0

/-- Sum of a list of `d`-dimensional vectors (torch `.sum(dim=1)` over the
sequence axis of one batch row). -/
def msum (d : ℕ) (rows : List (List ℝ)) : List ℝ := rows.foldr vadd (vzero d)

/-- Sum of squares of the components of a vector. -/
def sumSq (v : List ℝ) : ℝ := (v.map fun x => x * x).sum

/-- Euclidean (L2) norm. -/
def l2norm (v : List ℝ) : ℝ := Real.sqrt (sumSq v)

/-- torch `F.normalize(emb, p=2, dim=1)` applied to one row: divide by the
L2 norm clamped below at torch's default `eps = 1e-12`. -/
def l2normalize (v : List ℝ) : List ℝ := v.map fun x => x / max (l2norm v) 1e-12

/-- The externally supplied tokenizer/model pair (an `AutoTokenizer` and
`AutoModel` already moved to a device), as both files receive it.

* `tok` — the raw (untruncated) token ids the tokenizer produces for one
  string.
* `padId` — the id the tokenizer pads with.
* `hasMask` — whether the tokenizer output contains an `"attention_mask"`
  entry (`inputs.get("attention_mask")` is not `None`).
* `forward` — the model's last-layer hidden states for one padded
  sequence and its attention mask: one vector per token position.  A
  transformer computes each batch row independently of the others, so the
  batched call `model(**inputs).last_hidden_state` is this function mapped
  over the rows.  It may fail (e.g. out-of-memory), which models a Python
  exception raised during the forward pass.
* `dim` — the model's hidden dimension (768 for bge-base-en-v1.5).
-/
structure Handle where
  tok : String → List ℕ
  padId : ℕ
  hasMask : Bool
  forward : List ℕ → List ℕ → Except String (List (List ℝ))
  dim : ℕ

/-- Pad a token-id sequence on the right with `padId` up to length `M`. -/
def padTo (M : ℕ) (padId : ℕ) (ids : List ℕ) : List ℕ :=
  ids ++ List.replicate (M - ids.length) padId

/-- The attention-mask row for a sequence of `ids.length` real tokens
padded up to length `M`: 1 on real positions, 0 on padding. -/
def maskTo (M : ℕ) (ids : List ℕ) : List ℕ :=
  List.replicate ids.length 1 ++ List.replicate (M - ids.length) 0

/-- The tokenizer call
`tokenizer(batch, padding=True, truncation=True, max_length=512)`:
each string is tokenized, truncated to 512 tokens, and padded to the
longest sequence in this sub-batch; the attention mask has the same
shape.  Returns (input ids, attention masks). -/
def tokenizeBatch (H : Handle) (batch : List String) :
    List (List ℕ) × List (List ℕ) :=
  let idsList := batch.map fun s => (H.tok s).take 512
  let M := (idsList.map List.length).foldr max 0
  (idsList.map (padTo M H.padId), idsList.map (maskTo M))

/-- The batched forward pass `model(**inputs, return_dict=True)`:
the per-row `forward` applied to every (ids, mask) row; the first raised
fault aborts the whole call. -/
def forwardAll (H : Handle) : List (List ℕ × List ℕ) →
    Except String (List (List (List ℝ)))
  | [] => .ok []
  | (ids, mask) :: rest =>
    match H.forward ids mask with
    | .error e => .error e
    | .ok h =>
      match forwardAll H rest with
      | .error e => .error e
      | .ok hs => .ok (h :: hs)

/-- Python `range(0, stop, step)` for an arbitrary integer `step`, as the
batching loops use it: `step = 0` raises `ValueError`, a negative `step`
yields no indices (since `stop ≥ 0`), a positive `step` yields
`0, step, 2*step, ...` below `stop`. -/
def pyRange (stop : ℕ) (step : ℤ) : Except String (List ℕ) :=
  if step = 0 then .error "range() arg 3 must not be zero"
  else if step < 0 then .ok []
  else .ok ((List.range ((stop + step.toNat - 1) / step.toNat)).map
    fun k => k * step.toNat)

/-- The sub-batch slices `texts[i:i+batch_size]` taken at the indices of
`range(0, len(texts), batch_size)`. -/
def pyChunks {α : Type} (l : List α) (step : ℤ) :
    Except String (List (List α)) :=
  match pyRange l.length step with
  | .error e => .error e
  | .ok starts => .ok (starts.map fun i => (l.drop i).take step.toNat)

namespace Server

/-- `MODEL_NAME` in server.py. -/
def MODEL_NAME : String := "BAAI/bge-base-en-v1.5"

/-- server.py lines 116-124: masked mean pooling of one batch row.
`summed = (last_hidden * mask).sum(dim=1)`,
`counts = mask.sum(dim=1).clamp(min=1e-9)`, `emb = summed / counts`
(the expanded mask makes every component of `counts` the same scalar). -/
def poolMasked (d : ℕ) (mask : List ℕ) (hidden : List (List ℝ)) : List ℝ :=
  let summed := msum d
    (List.zipWith (fun (m : ℕ) (h : List ℝ) => vscale (m : ℝ) h) mask hidden)
  let counts : ℝ := max ((mask.map fun (m : ℕ) => (m : ℝ)).sum) 1e-9
  summed.map fun x => x / counts

/-- server.py line 127: the fallback `emb = last_hidden.mean(dim=1)`
when the tokenizer supplied no attention mask — a plain mean over all
token positions of the row, padding included. -/
def poolMean (d : ℕ) (hidden : List (List ℝ)) : List ℝ :=
  (msum d hidden).map fun x => x / (hidden.length : ℝ)

/-- server.py lines 96-133, one iteration of the batching loop: tokenize
the sub-batch, run the model, pool (masked if an attention mask is
present, plain mean otherwise), L2-normalize each row. -/
def batchEmbs (H : Handle) (batch : List String) :
    Except String (List (List ℝ)) :=
  let tk := tokenizeBatch H batch
  match forwardAll H (tk.1.zip tk.2) with
  | .error e => .error e
  | .ok hidden =>
    let embs := if H.hasMask
      then List.zipWith (poolMasked H.dim) tk.2 hidden
      else hidden.map (poolMean H.dim)
    .ok (embs.map l2normalize)

/-- The batching loop over the prepared sub-batches, accumulating into
`all_embs` via `extend`; a fault in any sub-batch aborts the whole call
with that fault and discards everything accumulated so far. -/
def loopBatches (H : Handle) : List (List String) →
    Except String (List (List ℝ))
  | [] => .ok []
  | b :: rest =>
    match batchEmbs H b with
    | .error e => .error e
    | .ok embs =>
      match loopBatches H rest with
      | .error e => .error e
      | .ok r => .ok (embs ++ r)

/-- server.py lines 92-133: the whole `try:` body of the handler —
`for i in range(0, len(texts), batch_size): batch = texts[i:i+batch_size]; ...`
with the embeddings of all sub-batches concatenated in order. -/
def embedLoop (H : Handle) (texts : List String) (batch_size : ℤ) :
    Except String (List (List ℝ)) :=
  match pyChunks texts batch_size with
  | .error e => .error e
  | .ok batches => loopBatches H batches

/-- The pydantic request model (`input`, `batch_size` defaulting to 32). -/
structure EmbeddingRequest where
  input : List String
  batch_size : ℤ := 32

/-- The pydantic response model. -/
structure EmbeddingResponse where
  embeddings : List (List ℝ)
  model : String
  dimension : ℕ

/-- A FastAPI `HTTPException`, carrying status code and detail. -/
structure HTTPException where
  status_code : ℕ
  detail : String
deriving DecidableEq

/-- server.py lines 74-146: the `/embeddings` handler.  503 when the
model is not loaded, 400 on empty input, 500 carrying `str(e)` when the
loop raises, otherwise the response with
`dimension = len(all_embs[0]) if all_embs else 0`. -/
def embeddings (H : Option Handle) (req : EmbeddingRequest) :
    Except HTTPException EmbeddingResponse :=
  match H with
  | none => .error ⟨503, "Model not loaded"⟩
  | some h =>
    if req.input = [] then .error ⟨400, "Input cannot be empty"⟩
    else
      match embedLoop h req.input req.batch_size with
      | .ok allEmbs =>
        .ok ⟨allEmbs, MODEL_NAME,
          match allEmbs with | [] => 0 | v :: _ => v.length⟩
      | .error e => .error ⟨500, e⟩

end Server

namespace Generate

/-- `MODEL_NAME` in generate.py. -/
def MODEL_NAME : String := "BAAI/bge-base-en-v1.5"

/-- generate.py lines 82-86: masked mean pooling of one batch row
(verbatim duplicate of the server code). -/
def poolMasked (d : ℕ) (mask : List ℕ) (hidden : List (List ℝ)) : List ℝ :=
  let summed := msum d
    (List.zipWith (fun (m : ℕ) (h : List ℝ) => vscale (m : ℝ) h) mask hidden)
  let counts : ℝ := max ((mask.map fun (m : ℕ) => (m : ℝ)).sum) 1e-9
  summed.map fun x => x / counts

/-- generate.py line 88: the no-mask fallback `last_hidden.mean(dim=1)`. -/
def poolMean (d : ℕ) (hidden : List (List ℝ)) : List ℝ :=
  (msum d hidden).map fun x => x / (hidden.length : ℝ)

/-- generate.py lines 61-94, one iteration of the batching loop. -/
def batchEmbs (H : Handle) (batch : List String) :
    Except String (List (List ℝ)) :=
  let tk := tokenizeBatch H batch
  match forwardAll H (tk.1.zip tk.2) with
  | .error e => .error e
  | .ok hidden =>
    let embs := if H.hasMask
      then List.zipWith (poolMasked H.dim) tk.2 hidden
      else hidden.map (poolMean H.dim)
    .ok (embs.map l2normalize)

/-- The batching loop, accumulating into `all_embs` via `extend`. -/
def loopBatches (H : Handle) : List (List String) →
    Except String (List (List ℝ))
  | [] => .ok []
  | b :: rest =>
    match batchEmbs H b with
    | .error e => .error e
    | .ok embs =>
      match loopBatches H rest with
      | .error e => .error e
      | .ok r => .ok (embs ++ r)

/-- generate.py lines 55-96: `generate_embeddings(texts, tokenizer,
model, device, batch_size)`. -/
def generate_embeddings (H : Handle) (texts : List String)
    (batch_size : ℤ) : Except String (List (List ℝ)) :=
  match pyChunks texts batch_size with
  | .error e => .error e
  | .ok batches => loopBatches H batches

/-- The observable outcome of running the CLI `main()`: either the JSON
result object, or an error object accompanied by `sys.exit(1)`. -/
inductive CLIResult where
  | ok (embeddings : List (List ℝ)) (model : String) (dimension : ℕ)
  | err (msg : String)

/-- The process exit code of each CLI outcome (`sys.exit(1)` on every
error path, normal exit otherwise). -/
def CLIResult.exitCode : CLIResult → ℕ
  | .ok _ _ _ => 0
  | .err _ => 1

/-- generate.py lines 98-141: `main()` after JSON parsing, for a request
whose `input` field is a list of strings.  The empty-input check runs
before `load_model()` is called, so `load` is only consulted on the
non-empty path. -/
def mainRun (load : Unit → Except String Handle) (input : List String)
    (batch_size : ℤ) : CLIResult :=
  if input = [] then .err "Input must contain 'input' array of strings"
  else
    match load () with
    | .error e => .err ("Failed to load model: " ++ e)
    | .ok hdl =>
      match generate_embeddings hdl input batch_size with
      | .ok embs =>
        .ok embs MODEL_NAME (match embs with | [] => 0 | v :: _ => v.length)
      | .error e => .err ("Failed to generate embeddings: " ++ e)

end Generate

/-! ### The external model contract and the per-string embedding -/

/-- Shape contract of the real transformer: a successful forward pass on a
sequence of `T` token ids yields `T` hidden vectors, each of the model's
hidden dimension. -/
def GoodForward (H : Handle) : Prop :=
  ∀ ids mask hs, H.forward ids mask = .ok hs →
    hs.length = ids.length ∧ ∀ v ∈ hs, v.length = H.dim

/-- Padding invariance of an attention-masked transformer: on a row made
of real ids followed by `p` padding tokens (mask 1 on the real part, 0 on
the padding), the forward pass succeeds, the hidden states of the real
positions (`f ids`) do not depend on `p`, and the padding positions carry
some `p` further vectors (`g ids p`). -/
def PadInvariant (H : Handle) (f : List ℕ → List (List ℝ))
    (g : List ℕ → ℕ → List (List ℝ)) : Prop :=
  ∀ ids p, (g ids p).length = p ∧
    H.forward (ids ++ List.replicate p H.padId)
      (List.replicate ids.length 1 ++ List.replicate p 0) =
      .ok (f ids ++ g ids p)

/-- The pooled (pre-normalization) vector of a single string, computed
from its own truncated token ids only. -/
def pooledOne (d : ℕ) (f : List ℕ → List (List ℝ)) (tok : String → List ℕ)
    (s : String) : List ℝ :=
  Server.poolMasked d (List.replicate ((tok s).take 512).length 1)
    (f ((tok s).take 512))

/-- The embedding of a single string: its pooled vector, L2-normalized. -/
def embedOne (d : ℕ) (f : List ℕ → List (List ℝ)) (tok : String → List ℕ)
    (s : String) : List ℝ :=
  l2normalize (pooledOne d f tok s)

/-! ### Basic vector lemmas -/

lemma msum_nil (d : ℕ) : msum d [] = vzero d := rfl

lemma msum_cons (d : ℕ) (r : List ℝ) (t : List (List ℝ)) :
    msum d (r :: t) = vadd r (msum d t) := rfl

lemma length_vscale (c : ℝ) (v : List ℝ) : (vscale c v).length = v.length := by
  simp [vscale]

lemma vscale_natCast_one (v : List ℝ) : vscale ((1 : ℕ) : ℝ) v = v := by
  simp [vscale]

lemma vscale_natCast_zero (v : List ℝ) :
    vscale ((0 : ℕ) : ℝ) v = List.replicate v.length 0 := by
  simp [vscale, List.map_const']

lemma length_vadd (u v : List ℝ) : (vadd u v).length = min u.length v.length := by
  simp [vadd]

lemma vadd_zeros (w : List ℝ) : vadd (List.replicate w.length 0) w = w := by
  induction w with
  | nil => rfl
  | cons a t ih =>
    simp only [List.length_cons, List.replicate_succ, vadd,
      List.zipWith_cons_cons, zero_add]
    exact congrArg (List.cons a) ih

lemma length_msum (d : ℕ) (rows : List (List ℝ))
    (h : ∀ v ∈ rows, v.length = d) : (msum d rows).length = d := by
  induction rows with
  | nil => simp [msum, vzero]
  | cons r t ih =>
    have hr : r.length = d := h r (by simp)
    have ht : (msum d t).length = d := ih fun v hv => h v (by simp [hv])
    rw [msum_cons, length_vadd, hr, ht, min_self]

lemma msum_zeros (d : ℕ) (zs : List (List ℝ))
    (h : ∀ z ∈ zs, z = vzero d) : msum d zs = vzero d := by
  induction zs with
  | nil => rfl
  | cons z t ih =>
    rw [msum_cons, h z (by simp), ih fun x hx => h x (by simp [hx])]
    have h2 := vadd_zeros (vzero d)
    simpa [vzero] using h2

lemma msum_append (d : ℕ) (pre zs : List (List ℝ)) :
    msum d (pre ++ zs) = pre.foldr vadd (msum d zs) := by
  simp [msum, List.foldr_append]

lemma castSum_mask (L p : ℕ) :
    (((List.replicate L (1 : ℕ) ++ List.replicate p 0).map
      fun (m : ℕ) => (m : ℝ)).sum) = (L : ℝ) := by
  simp [List.sum_replicate]

lemma castSum_ones (L : ℕ) :
    (((List.replicate L (1 : ℕ)).map fun (m : ℕ) => (m : ℝ)).sum) = (L : ℝ) := by
  simp [List.sum_replicate]

lemma zipWith_vscale_ones (pre : List (List ℝ)) :
    List.zipWith (fun (m : ℕ) (h : List ℝ) => vscale (m : ℝ) h)
      (List.replicate pre.length (1 : ℕ)) pre = pre := by
  induction pre with
  | nil => rfl
  | cons a t ih =>
    simp only [List.length_cons, List.replicate_succ, List.zipWith_cons_cons,
      vscale_natCast_one]
    exact congrArg (List.cons a) ih

lemma zipWith_vscale_zeros (d : ℕ) (pads : List (List ℝ))
    (h : ∀ v ∈ pads, v.length = d) :
    List.zipWith (fun (m : ℕ) (h : List ℝ) => vscale (m : ℝ) h)
      (List.replicate pads.length (0 : ℕ)) pads =
    List.replicate pads.length (vzero d) := by
  induction pads with
  | nil => rfl
  | cons a t ih =>
    simp only [List.length_cons, List.replicate_succ, List.zipWith_cons_cons,
      vscale_natCast_zero]
    rw [h a (by simp), ih fun v hv => h v (by simp [hv])]
    rfl

/-- Masked pooling ignores the padding suffix: pooling a row whose hidden
states are real vectors followed by padding vectors, against the mask
`1^L ++ 0^p`, gives the same result as pooling the real part alone. -/
lemma poolMasked_split (d : ℕ) (pre pads : List (List ℝ))
    (_hpre : ∀ v ∈ pre, v.length = d) (hpads : ∀ v ∈ pads, v.length = d) :
    Server.poolMasked d
      (List.replicate pre.length 1 ++ List.replicate pads.length 0)
      (pre ++ pads) =
    Server.poolMasked d (List.replicate pre.length 1) pre := by
  simp only [Server.poolMasked]
  rw [List.zipWith_append _ _ _ _ _ (by simp)]
  rw [zipWith_vscale_ones, zipWith_vscale_zeros d pads hpads]
  rw [msum_append, msum_zeros d _ (fun z hz => List.eq_of_mem_replicate hz)]
  rw [castSum_mask, castSum_ones]
  rfl

/-! ### Forward-pass lemmas -/

lemma forwardAll_ok_of {β : Type} (H : Handle) (l : List β)
    (p q : β → List ℕ) (r : β → List (List ℝ))
    (h : ∀ x ∈ l, H.forward (p x) (q x) = .ok (r x)) :
    forwardAll H (l.map fun x => (p x, q x)) = .ok (l.map r) := by
  induction l with
  | nil => rfl
  | cons a t ih =>
    simp only [List.map_cons, forwardAll]
    rw [h a (by simp), ih fun x hx => h x (by simp [hx])]

lemma forwardAll_ok_length (H : Handle) :
    ∀ (pairs : List (List ℕ × List ℕ)) hs,
      forwardAll H pairs = .ok hs → hs.length = pairs.length := by
  intro pairs
  induction pairs with
  | nil =>
    intro hs h
    simp only [forwardAll] at h
    cases h
    rfl
  | cons a t ih =>
    intro hs h
    obtain ⟨ids, mask⟩ := a
    simp only [forwardAll] at h
    cases hf : H.forward ids mask with
    | error e => rw [hf] at h; cases h
    | ok hd =>
      rw [hf] at h
      cases hr : forwardAll H t with
      | error e => rw [hr] at h; cases h
      | ok hst =>
        rw [hr] at h
        cases h
        simp [ih hst hr]

/-- Every element of a list is bounded by the `foldr max 0` the tokenizer
uses to find the padding length. -/
lemma le_foldr_max (l : List ℕ) (a : ℕ) (h : a ∈ l) : a ≤ l.foldr max 0 := by
  induction l with
  | nil => cases h
  | cons b t ih =>
    rcases List.mem_cons.mp h with rfl | hmem
    · exact le_max_left _ _
    · exact le_trans (ih hmem) (le_max_right _ _)

/-- Consequences of the shape and padding-invariance contracts for the
real part of a row: `f ids` has one vector per real token, every vector of
dimension `H.dim`, and likewise for the padding part. -/
lemma padInv_shapes (H : Handle) (f : List ℕ → List (List ℝ))
    (g : List ℕ → ℕ → List (List ℝ)) (hG : GoodForward H)
    (hP : PadInvariant H f g) (ids : List ℕ) :
    (f ids).length = ids.length ∧ (∀ v ∈ f ids, v.length = H.dim) ∧
      ∀ p, ∀ v ∈ g ids p, v.length = H.dim := by
  have h0 := hP ids 0
  have hg0 : g ids 0 = [] := List.length_eq_zero.mp h0.1
  have hfwd := h0.2
  rw [hg0, List.append_nil] at hfwd
  simp only [List.replicate_zero, List.append_nil] at hfwd
  have hsh := hG _ _ _ hfwd
  refine ⟨by simpa using hsh.1, hsh.2, ?_⟩
  intro p v hv
  have hp := hP ids p
  have hshp := hG _ _ _ hp.2
  exact hshp.2 v (List.mem_append_right _ hv)

lemma zipWith_map_same {α β γ δ : Type} (f : β → γ → δ) (u : α → β)
    (v : α → γ) (l : List α) :
    List.zipWith f (l.map u) (l.map v) = l.map fun x => f (u x) (v x) := by
  induction l with
  | nil => rfl
  | cons a t ih => simp [ih]

/-- One loop iteration computes, for every string of the sub-batch, the
masked-mean-pooled and normalized embedding of that string's own
(truncated) token ids — the padding the tokenizer added to equalize row
lengths does not influence the result. -/
lemma Server_batchEmbs_ok (H : Handle) (f : List ℕ → List (List ℝ))
    (g : List ℕ → ℕ → List (List ℝ)) (hG : GoodForward H)
    (hP : PadInvariant H f g) (hm : H.hasMask = true) (batch : List String) :
    Server.batchEmbs H batch = .ok (batch.map (embedOne H.dim f H.tok)) := by
  simp only [Server.batchEmbs, tokenizeBatch]
  set idsList := batch.map fun s => (H.tok s).take 512 with hIdsList
  set M := (idsList.map List.length).foldr max 0 with hM
  rw [List.zip_map' (padTo M H.padId) (maskTo M) idsList]
  rw [forwardAll_ok_of H idsList (padTo M H.padId) (maskTo M)
    (fun ids => f ids ++ g ids (M - ids.length))
    (fun ids _ => by
      have hp := (hP ids (M - ids.length)).2
      simpa [padTo, maskTo] using hp)]
  rw [hm]
  simp only [if_true]
  rw [zipWith_map_same]
  have hper : ∀ ids ∈ idsList,
      Server.poolMasked H.dim (maskTo M ids) (f ids ++ g ids (M - ids.length)) =
        Server.poolMasked H.dim (List.replicate ids.length 1) (f ids) := by
    intro ids _
    have hs := padInv_shapes H f g hG hP ids
    have hglen : (g ids (M - ids.length)).length = M - ids.length :=
      (hP ids _).1
    have hsplit := poolMasked_split H.dim (f ids) (g ids (M - ids.length))
      hs.2.1 (hs.2.2 _)
    rw [hs.1, hglen] at hsplit
    simpa [maskTo] using hsplit
  rw [List.map_congr_left hper, hIdsList]
  simp only [List.map_map]
  rfl

/-! ### The batching loop as recursive chunking -/

/-- Fuel-indexed recursive chunking; with `l.length` fuel and a positive
chunk size it produces `take bs l :: chunks of (drop bs l)`. -/
def chunksGo {α : Type} (bs : ℕ) : ℕ → List α → List (List α)
  | 0, _ => []
  | _+1, [] => []
  | fuel+1, x :: xs => ((x :: xs).take bs) :: chunksGo bs fuel ((x :: xs).drop bs)

/-- The contiguous sub-batches of `l` of size `bs` (last one possibly
shorter). -/
def chunksRec {α : Type} (bs : ℕ) (l : List α) : List (List α) :=
  chunksGo bs l.length l

lemma chunksGo_nil {α : Type} (bs fuel : ℕ) :
    chunksGo bs fuel ([] : List α) = [] := by
  cases fuel <;> rfl

lemma chunksGo_cons {α : Type} (bs fuel : ℕ) (x : α) (xs : List α) :
    chunksGo bs (fuel+1) (x :: xs) =
      ((x :: xs).take bs) :: chunksGo bs fuel ((x :: xs).drop bs) := rfl

/-- How the count `ceil(n / b) = (n + b - 1) / b` of loop iterations
steps when one chunk of `b` elements is consumed. -/
lemma count_step (b n : ℕ) (hb : 0 < b) (hn : 0 < n) :
    (n + b - 1) / b = ((n - b) + b - 1) / b + 1 := by
  have h1 : (n + b - 1) / b = ((n + b - 1) - b) / b + 1 :=
    Nat.div_eq_sub_div hb (by omega)
  have h2 : (n + b - 1) - b = n - 1 := by omega
  rw [h1, h2]
  rcases le_or_lt b n with h | h
  · have h3 : (n - b) + b - 1 = n - 1 := by omega
    rw [h3]
  · have e1 : n - 1 < b := by omega
    have e2 : (n - b) + b - 1 < b := by omega
    rw [Nat.div_eq_of_lt e1, Nat.div_eq_of_lt e2]

/-- The slices of `l` taken at the indices of
`range(0, len(l), b)` are exactly the recursive chunks. -/
lemma pyStarts_eq_chunksGo {α : Type} (b : ℕ) (hb : 0 < b) :
    ∀ (fuel : ℕ) (l : List α), l.length ≤ fuel →
      (List.range ((l.length + b - 1) / b)).map
        (fun k => (l.drop (k * b)).take b) = chunksGo b fuel l := by
  intro fuel
  induction fuel with
  | zero =>
    intro l hl
    have hnil : l = [] := List.length_eq_zero.mp (Nat.le_zero.mp hl)
    subst hnil
    show (List.range ((0 + b - 1) / b)).map _ = _
    rw [Nat.div_eq_of_lt (by omega)]
    rfl
  | succ fuel ih =>
    intro l hl
    cases l with
    | nil =>
      show (List.range ((0 + b - 1) / b)).map _ = _
      rw [Nat.div_eq_of_lt (by omega)]
      rfl
    | cons x xs =>
      rw [count_step b (x :: xs).length hb (by simp), List.range_succ_eq_map,
        List.map_cons, List.map_map, chunksGo_cons]
      simp only [Nat.zero_mul, List.drop_zero]
      refine congrArg (List.cons _) ?_
      have hcongr : ∀ j, (((x :: xs).drop (Nat.succ j * b)).take b) =
          ((((x :: xs).drop b).drop (j * b)).take b) := by
        intro j
        rw [List.drop_drop]
        have hj : Nat.succ j * b = b + j * b := by
          rw [Nat.succ_mul]
          omega
        rw [hj]
      have hlen2 : ((x :: xs).drop b).length ≤ fuel := by
        rw [List.length_drop]
        simp only [List.length_cons] at hl ⊢
        omega
      have hrec := ih ((x :: xs).drop b) hlen2
      rw [List.length_drop] at hrec
      simp only [List.length_cons] at hrec ⊢
      rw [← hrec]
      exact List.map_congr_left fun j _ => hcongr j

/-- For a positive `batch_size` the loop's slices are the recursive
chunks of the input. -/
lemma pyChunks_pos {α : Type} (l : List α) (step : ℤ) (hs : 0 < step) :
    pyChunks l step = .ok (chunksRec step.toNat l) := by
  unfold pyChunks pyRange
  rw [if_neg (by omega), if_neg (by omega)]
  simp only [List.map_map]
  refine congrArg Except.ok ?_
  exact pyStarts_eq_chunksGo step.toNat (by omega) l.length l le_rfl

/-- The chunks concatenate back to the input list: no element is lost,
duplicated or reordered by the batching loop. -/
lemma chunksGo_flatten {α : Type} (b : ℕ) (hb : 0 < b) :
    ∀ (fuel : ℕ) (l : List α), l.length ≤ fuel →
      (chunksGo b fuel l).flatten = l := by
  intro fuel
  induction fuel with
  | zero =>
    intro l hl
    have hnil : l = [] := List.length_eq_zero.mp (Nat.le_zero.mp hl)
    subst hnil
    rfl
  | succ fuel ih =>
    intro l hl
    cases l with
    | nil => rfl
    | cons x xs =>
      rw [chunksGo_cons, List.flatten_cons]
      have hlen2 : ((x :: xs).drop b).length ≤ fuel := by
        rw [List.length_drop]
        simp only [List.length_cons] at hl ⊢
        omega
      rw [ih _ hlen2]
      exact List.take_append_drop b (x :: xs)

/-- Every chunk has at most `b` elements. -/
lemma chunksGo_le {α : Type} (b : ℕ) :
    ∀ (fuel : ℕ) (l : List α), ∀ c ∈ chunksGo b fuel l, c.length ≤ b := by
  intro fuel
  induction fuel with
  | zero =>
    intro l c hc
    cases hc
  | succ fuel ih =>
    intro l c hc
    cases l with
    | nil =>
      rw [chunksGo_nil] at hc
      cases hc
    | cons x xs =>
      rw [chunksGo_cons] at hc
      rcases List.mem_cons.mp hc with rfl | hmem
      · rw [List.length_take]
        exact min_le_left _ _
      · exact ih _ c hmem

/-- Every chunk except possibly the last has exactly `b` elements. -/
lemma chunksGo_dropLast_len {α : Type} (b : ℕ) :
    ∀ (fuel : ℕ) (l : List α), ∀ c ∈ (chunksGo b fuel l).dropLast,
      c.length = b := by
  intro fuel
  induction fuel with
  | zero =>
    intro l c hc
    cases hc
  | succ fuel ih =>
    intro l c hc
    cases l with
    | nil =>
      rw [chunksGo_nil] at hc
      cases hc
    | cons x xs =>
      rw [chunksGo_cons] at hc
      cases hrest : chunksGo b fuel ((x :: xs).drop b) with
      | nil =>
        rw [hrest] at hc
        cases hc
      | cons r rs =>
        rw [hrest, List.dropLast_cons₂] at hc
        rcases List.mem_cons.mp hc with rfl | hmem
        · have hbl : b ≤ (x :: xs).length := by
            by_contra hlt
            push_neg at hlt
            have hdrop : (x :: xs).drop b = [] :=
              List.drop_eq_nil_of_le (le_of_lt hlt)
            rw [hdrop, chunksGo_nil] at hrest
            cases hrest
          rw [List.length_take]
          exact min_eq_left hbl
        · refine ih ((x :: xs).drop b) c ?_
          rw [hrest]
          exact hmem

/-! ### Whole-pipeline lemmas -/

lemma Server_loopBatches_ok (H : Handle) (f : List ℕ → List (List ℝ))
    (g : List ℕ → ℕ → List (List ℝ)) (hG : GoodForward H)
    (hP : PadInvariant H f g) (hm : H.hasMask = true) :
    ∀ batches : List (List String),
      Server.loopBatches H batches =
        .ok ((batches.flatten).map (embedOne H.dim f H.tok)) := by
  intro batches
  induction batches with
  | nil => rfl
  | cons b rest ih =>
    simp only [Server.loopBatches]
    rw [Server_batchEmbs_ok H f g hG hP hm b, ih]
    simp [List.map_append]

/-- The whole loop body of either entry point: for a well-behaved model
handle and a positive batch size it computes, in input order, the
padding-independent embedding of every input string. -/
lemma Server_embedLoop_ok (H : Handle) (f : List ℕ → List (List ℝ))
    (g : List ℕ → ℕ → List (List ℝ)) (hG : GoodForward H)
    (hP : PadInvariant H f g) (hm : H.hasMask = true) (texts : List String)
    (bs : ℤ) (hbs : 0 < bs) :
    Server.embedLoop H texts bs = .ok (texts.map (embedOne H.dim f H.tok)) := by
  simp only [Server.embedLoop]
  rw [pyChunks_pos texts bs hbs]
  show Server.loopBatches H (chunksRec bs.toNat texts) = _
  rw [Server_loopBatches_ok H f g hG hP hm]
  rw [show (chunksRec bs.toNat texts).flatten = texts from
    chunksGo_flatten bs.toNat (by omega) texts.length texts le_rfl]

lemma Server_batchEmbs_ok_length (H : Handle) (batch : List String)
    (l : List (List ℝ)) (h : Server.batchEmbs H batch = .ok l) :
    l.length = batch.length := by
  simp only [Server.batchEmbs] at h
  cases hf : forwardAll H
      ((tokenizeBatch H batch).1.zip (tokenizeBatch H batch).2) with
  | error e =>
    rw [hf] at h
    exact Except.noConfusion h
  | ok hidden =>
    rw [hf] at h
    simp only [Except.ok.injEq] at h
    subst h
    have hlen := forwardAll_ok_length H _ _ hf
    rw [List.length_zip] at hlen
    have h1 : (tokenizeBatch H batch).1.length = batch.length := by
      simp [tokenizeBatch]
    have h2 : (tokenizeBatch H batch).2.length = batch.length := by
      simp [tokenizeBatch]
    rw [h1, h2, min_self] at hlen
    cases hmask : H.hasMask with
    | true =>
      simp only [hmask, if_true, List.length_map, List.length_zipWith]
      rw [h2, hlen]
      exact min_self _
    | false =>
      rw [if_neg (by simp)]
      simp only [List.length_map]
      exact hlen

lemma Server_loopBatches_ok_length (H : Handle) :
    ∀ (batches : List (List String)) (l : List (List ℝ)),
      Server.loopBatches H batches = .ok l →
        l.length = batches.flatten.length := by
  intro batches
  induction batches with
  | nil =>
    intro l h
    simp only [Server.loopBatches] at h
    cases h
    rfl
  | cons b rest ih =>
    intro l h
    simp only [Server.loopBatches] at h
    cases hb : Server.batchEmbs H b with
    | error e =>
      rw [hb] at h
      exact Except.noConfusion h
    | ok embs =>
      rw [hb] at h
      cases hr : Server.loopBatches H rest with
      | error e =>
        rw [hr] at h
        exact Except.noConfusion h
      | ok r =>
        rw [hr] at h
        simp only [Except.ok.injEq] at h
        subst h
        have h1 := Server_batchEmbs_ok_length H b embs hb
        have h2 := ih r hr
        simp [List.length_append, List.flatten_cons, h1, h2]

/-- When the loop succeeds with a positive batch size, it returns one
vector per input string. -/
lemma Server_embedLoop_ok_length (H : Handle) (texts : List String)
    (bs : ℤ) (hbs : 0 < bs) (l : List (List ℝ))
    (h : Server.embedLoop H texts bs = .ok l) : l.length = texts.length := by
  simp only [Server.embedLoop] at h
  rw [pyChunks_pos texts bs hbs] at h
  have hlen := Server_loopBatches_ok_length H (chunksRec bs.toNat texts) l h
  rw [show (chunksRec bs.toNat texts).flatten = texts from
    chunksGo_flatten bs.toNat (by omega) texts.length texts le_rfl] at hlen
  exact hlen

/-! ### The two files implement the same transformation -/

lemma gen_batchEmbs_eq (H : Handle) (batch : List String) :
    Generate.batchEmbs H batch = Server.batchEmbs H batch := rfl

lemma gen_loop_eq (H : Handle) :
    ∀ batches, Generate.loopBatches H batches = Server.loopBatches H batches := by
  intro batches
  induction batches with
  | nil => rfl
  | cons b rest ih =>
    simp only [Generate.loopBatches, Server.loopBatches, gen_batchEmbs_eq, ih]

lemma gen_embedLoop_eq (H : Handle) (texts : List String) (bs : ℤ) :
    Generate.generate_embeddings H texts bs = Server.embedLoop H texts bs := by
  simp only [Generate.generate_embeddings, Server.embedLoop, gen_loop_eq]

/-! ### The unit-norm property of normalization -/

lemma sumSq_nonneg (v : List ℝ) : 0 ≤ sumSq v := by
  refine List.sum_nonneg ?_
  intro x hx
  rcases List.mem_map.mp hx with ⟨a, _, rfl⟩
  exact mul_self_nonneg a

lemma sumSq_cons (a : ℝ) (t : List ℝ) : sumSq (a :: t) = a * a + sumSq t := by
  simp [sumSq]

lemma sumSq_map_div (v : List ℝ) (c : ℝ) :
    sumSq (v.map fun x => x / c) = sumSq v / c ^ 2 := by
  induction v with
  | nil => simp [sumSq]
  | cons a t ih =>
    rw [List.map_cons, sumSq_cons, sumSq_cons, ih]
    ring

/-- When the pooled vector's norm is at least torch's `eps = 1e-12`, the
`F.normalize` output has L2 norm exactly 1 (in exact real arithmetic). -/
lemma l2norm_l2normalize (v : List ℝ) (hv : (1e-12 : ℝ) ≤ l2norm v) :
    l2norm (l2normalize v) = 1 := by
  have hc : max (l2norm v) (1e-12 : ℝ) = l2norm v := max_eq_left hv
  have hpos : 0 < l2norm v := lt_of_lt_of_le (by norm_num) hv
  unfold l2normalize
  rw [hc]
  unfold l2norm
  rw [sumSq_map_div, Real.sqrt_div (sumSq_nonneg v)]
  rw [Real.sqrt_sq (Real.sqrt_nonneg (sumSq v))]
  exact div_self (ne_of_gt hpos)

/-! ### The spec's description of masked mean pooling -/

/-- Modelled from the spec's sentence: sum the hidden-state vectors at
positions where the mask is 1 (real tokens), divide by the count of such
positions, clamping the divisor below at 1e-9. -/
def specMaskedMean (d : ℕ) (mask : List ℕ) (hidden : List (List ℝ)) : List ℝ :=
  let real := ((mask.zip hidden).filter fun pr => pr.1 == 1).map Prod.snd
  (msum d real).map fun x => x / max ((mask.count 1 : ℕ) : ℝ) 1e-9

lemma zipWith_vscale_dims (d : ℕ) : ∀ (mask : List ℕ) (hidden : List (List ℝ)),
    (∀ v ∈ hidden, v.length = d) →
    ∀ v ∈ List.zipWith (fun (m : ℕ) (h : List ℝ) => vscale (m : ℝ) h) mask hidden,
      v.length = d := by
  intro mask
  induction mask with
  | nil =>
    intro hidden _ v hv
    simp at hv
  | cons m mt ih =>
    intro hidden hdim v hv
    cases hidden with
    | nil => simp at hv
    | cons h ht =>
      rw [List.zipWith_cons_cons] at hv
      rcases List.mem_cons.mp hv with rfl | hmem
      · rw [length_vscale]
        exact hdim h (by simp)
      · exact ih ht (fun x hx => hdim x (by simp [hx])) v hmem

/-- The code's `(last_hidden * mask).sum(dim=1)` equals the sum of just
the hidden vectors at mask-1 positions, when the mask is 0/1-valued. -/
lemma maskedSum_eq_selected (d : ℕ) : ∀ (mask : List ℕ) (hidden : List (List ℝ)),
    (∀ m ∈ mask, m = 0 ∨ m = 1) → mask.length = hidden.length →
    (∀ v ∈ hidden, v.length = d) →
    msum d (List.zipWith (fun (m : ℕ) (h : List ℝ) => vscale (m : ℝ) h) mask hidden)
      = msum d (((mask.zip hidden).filter fun pr => pr.1 == 1).map Prod.snd) := by
  intro mask
  induction mask with
  | nil =>
    intro hidden _ _ _
    rfl
  | cons m mt ih =>
    intro hidden h01 hlen hdim
    cases hidden with
    | nil => rfl
    | cons h ht =>
      have hlen' : mt.length = ht.length := by
        simp only [List.length_cons] at hlen
        omega
      have hdim' : ∀ v ∈ ht, v.length = d := fun v hv => hdim v (by simp [hv])
      have h01' : ∀ x ∈ mt, x = 0 ∨ x = 1 := fun x hx => h01 x (by simp [hx])
      rw [List.zipWith_cons_cons, List.zip_cons_cons, msum_cons]
      rcases h01 m (by simp) with rfl | rfl
      · rw [vscale_natCast_zero, hdim h (by simp)]
        have hrest := zipWith_vscale_dims d mt ht hdim'
        have hmlen := length_msum d _ hrest
        have hz := vadd_zeros (msum d
          (List.zipWith (fun (m : ℕ) (h : List ℝ) => vscale (m : ℝ) h) mt ht))
        rw [hmlen] at hz
        rw [hz, ih ht h01' hlen' hdim']
        rfl
      · rw [vscale_natCast_one, ih ht h01' hlen' hdim']
        rfl

lemma castSum_eq_count : ∀ (mask : List ℕ), (∀ m ∈ mask, m = 0 ∨ m = 1) →
    ((mask.map fun (m : ℕ) => (m : ℝ)).sum) = ((mask.count 1 : ℕ) : ℝ) := by
  intro mask
  induction mask with
  | nil =>
    intro
    simp
  | cons m mt ih =>
    intro h01
    rw [List.map_cons, List.sum_cons, ih fun x hx => h01 x (by simp [hx])]
    rcases h01 m (by simp) with rfl | rfl
    · simp [List.count_cons]
    · simp [List.count_cons, add_comm]

/-! ### The no-attention-mask fallback -/

lemma forwardAll_total (H : Handle) (F : List ℕ → List ℕ → List (List ℝ))
    (hfwd : ∀ ids mask, H.forward ids mask = .ok (F ids mask)) :
    ∀ pairs : List (List ℕ × List ℕ),
      forwardAll H pairs = .ok (pairs.map fun pr => F pr.1 pr.2) := by
  intro pairs
  induction pairs with
  | nil => rfl
  | cons a t ih =>
    obtain ⟨ids, mask⟩ := a
    simp only [forwardAll, hfwd, ih, List.map_cons]

/-- With no attention mask in the tokenizer output and a fault-free
forward pass, one loop iteration takes the fallback branch: a plain mean
over all token positions (padding included), then normalization. -/
lemma Server_batchEmbs_nomask (H : Handle)
    (F : List ℕ → List ℕ → List (List ℝ)) (hm : H.hasMask = false)
    (hfwd : ∀ ids mask, H.forward ids mask = .ok (F ids mask))
    (batch : List String) :
    Server.batchEmbs H batch =
      .ok ((((tokenizeBatch H batch).1).zip ((tokenizeBatch H batch).2)).map
        fun pr => l2normalize (Server.poolMean H.dim (F pr.1 pr.2))) := by
  simp only [Server.batchEmbs]
  rw [forwardAll_total H F hfwd, hm]
  simp [List.map_map]

/-! ### Concrete handles used to exercise the theorems -/

/-- Real-position hidden states of the constant test model: one
1-dimensional vector `[1]` per token. -/
def fc : List ℕ → List (List ℝ) := fun ids => ids.map fun _ => [1]

/-- Padding-position hidden states of the constant test model. -/
def gc : List ℕ → ℕ → List (List ℝ) := fun _ p => List.replicate p [1]

/-- A concrete masked handle: every string tokenizes to `[0]`, the model
returns `[1]` at every position, hidden dimension 1. -/
def Hc : Handle where
  tok := fun _ => [0]
  padId := 0
  hasMask := true
  forward := fun ids _ => .ok (ids.map fun _ => [1])
  dim := 1

/-- The same model but whose tokenizer yields no attention mask. -/
def Hn : Handle where
  tok := fun _ => [0]
  padId := 0
  hasMask := false
  forward := fun ids _ => .ok (ids.map fun _ => [1])
  dim := 1

/-- The total forward function of `Hn`. -/
def Fn : List ℕ → List ℕ → List (List ℝ) := fun ids _ => ids.map fun _ => [1]

lemma Hc_good : GoodForward Hc := by
  intro ids mask hs h
  have h' : (Except.ok (ids.map fun _ => ([1] : List ℝ)) :
      Except String (List (List ℝ))) = .ok hs := h
  injection h' with h2
  subst h2
  refine ⟨by simp, ?_⟩
  intro v hv
  rcases List.mem_map.mp hv with ⟨a, _, rfl⟩
  rfl

lemma Hc_pad : PadInvariant Hc fc gc := by
  intro ids p
  refine ⟨by simp [gc], ?_⟩
  show (Except.ok ((ids ++ List.replicate p (0 : ℕ)).map fun _ => ([1] : List ℝ)) :
      Except String (List (List ℝ))) = .ok (fc ids ++ gc ids p)
  rw [List.map_append, List.map_replicate]
  rfl

lemma pooledOne_Hc (s : String) : pooledOne Hc.dim fc Hc.tok s = [(1 : ℝ)] := by
  have h1 : max ((1 : ℝ)) (1e-9) = 1 := max_eq_left (by norm_num)
  show Server.poolMasked 1 (List.replicate 1 1) [[(1 : ℝ)]] = [(1 : ℝ)]
  simp [Server.poolMasked, msum, vadd, vzero, vscale, h1]

lemma l2norm_single_one : l2norm [(1 : ℝ)] = 1 := by
  simp [l2norm, sumSq]

/-! ### The claims -/

/-- Claim C1: for every non-empty list of input strings of length N and every
positive batch_size, the embedding pipeline (the /embeddings handler in
server.py and generate_embeddings in generate.py) returns exactly N embedding
vectors, and the i-th output vector is the embedding of the i-th input string —
given the external model handle's shape and padding-invariance contracts and a
tokenizer that supplies an attention mask. -/
theorem claim_C1 (H : Handle) (f : List ℕ → List (List ℝ))
    (g : List ℕ → ℕ → List (List ℝ)) (hG : GoodForward H)
    (hP : PadInvariant H f g) (hm : H.hasMask = true)
    (texts : List String) (bs : ℤ) (hne : texts ≠ []) (hbs : 0 < bs) :
    ∃ resp : Server.EmbeddingResponse,
      Server.embeddings (some H) ⟨texts, bs⟩ = .ok resp ∧
      resp.embeddings = texts.map (embedOne H.dim f H.tok) ∧
      resp.embeddings.length = texts.length ∧
      Generate.generate_embeddings H texts bs =
        .ok (texts.map (embedOne H.dim f H.tok)) := by
  have hloop := Server_embedLoop_ok H f g hG hP hm texts bs hbs
  refine ⟨⟨texts.map (embedOne H.dim f H.tok), Server.MODEL_NAME,
    match texts.map (embedOne H.dim f H.tok) with
    | [] => 0 | v :: _ => v.length⟩, ?_, rfl, by simp, ?_⟩
  · simp only [Server.embeddings]
    rw [if_neg hne, hloop]
  · rw [gen_embedLoop_eq, hloop]

/-- Witness for C1 at a concrete handle and input. -/
theorem claim_C1_w :
    (["hello world"] : List String) ≠ [] ∧ (0 : ℤ) < 32 ∧
    ∃ resp : Server.EmbeddingResponse,
      Server.embeddings (some Hc) ⟨["hello world"], 32⟩ = .ok resp ∧
      resp.embeddings =
        (["hello world"] : List String).map (embedOne Hc.dim fc Hc.tok) ∧
      resp.embeddings.length = (["hello world"] : List String).length ∧
      Generate.generate_embeddings Hc ["hello world"] 32 =
        .ok ((["hello world"] : List String).map (embedOne Hc.dim fc Hc.tok)) :=
  ⟨by simp, by norm_num,
    claim_C1 Hc fc gc Hc_good Hc_pad rfl ["hello world"] 32 (by simp)
      (by norm_num)⟩

/-- Claim C2: every vector the pipeline returns has Euclidean norm exactly 1
(in the exact-arithmetic idealization), provided each pooled vector's norm is
at least torch's normalization floor 1e-12 — the division by the L2 norm in
`F.normalize` makes the output a unit vector. -/
theorem claim_C2 (H : Handle) (f : List ℕ → List (List ℝ))
    (g : List ℕ → ℕ → List (List ℝ)) (hG : GoodForward H)
    (hP : PadInvariant H f g) (hm : H.hasMask = true)
    (texts : List String) (bs : ℤ) (hbs : 0 < bs)
    (hnz : ∀ s ∈ texts, (1e-12 : ℝ) ≤ l2norm (pooledOne H.dim f H.tok s)) :
    (∀ resp, Server.embeddings (some H) ⟨texts, bs⟩ = .ok resp →
      ∀ v ∈ resp.embeddings, l2norm v = 1) ∧
    (∀ l, Generate.generate_embeddings H texts bs = .ok l →
      ∀ v ∈ l, l2norm v = 1) := by
  have hloop := Server_embedLoop_ok H f g hG hP hm texts bs hbs
  have hmem : ∀ v ∈ texts.map (embedOne H.dim f H.tok), l2norm v = 1 := by
    intro v hv
    rcases List.mem_map.mp hv with ⟨s, hs, rfl⟩
    exact l2norm_l2normalize _ (hnz s hs)
  constructor
  · intro resp hresp
    by_cases hne : texts = []
    · subst hne
      simp [Server.embeddings] at hresp
    · simp only [Server.embeddings] at hresp
      rw [if_neg hne, hloop] at hresp
      injection hresp with h2
      subst h2
      intro v hv
      exact hmem v hv
  · intro l hl
    rw [gen_embedLoop_eq, hloop] at hl
    injection hl with h2
    subst h2
    exact hmem

/-- Witness for C2 at a concrete handle and input. -/
theorem claim_C2_w :
    (0 : ℤ) < 32 ∧
    (∀ s ∈ (["a"] : List String),
      (1e-12 : ℝ) ≤ l2norm (pooledOne Hc.dim fc Hc.tok s)) ∧
    ((∀ resp, Server.embeddings (some Hc) ⟨["a"], 32⟩ = .ok resp →
        ∀ v ∈ resp.embeddings, l2norm v = 1) ∧
      (∀ l, Generate.generate_embeddings Hc ["a"] 32 = .ok l →
        ∀ v ∈ l, l2norm v = 1)) := by
  have hnz : ∀ s ∈ (["a"] : List String),
      (1e-12 : ℝ) ≤ l2norm (pooledOne Hc.dim fc Hc.tok s) := by
    intro s _
    rw [pooledOne_Hc, l2norm_single_one]
    norm_num
  exact ⟨by norm_num, hnz,
    claim_C2 Hc fc gc Hc_good Hc_pad rfl ["a"] 32 (by norm_num) hnz⟩

/-- Claim C3: when the tokenizer supplies an attention mask, the pooled vector
of each sequence equals the sum of the final-layer hidden-state vectors at
positions where the mask is 1, divided by the count of such positions, with the
divisor clamped below at 1e-9 — in both files. -/
theorem claim_C3 (d : ℕ) (mask : List ℕ) (hidden : List (List ℝ))
    (h01 : ∀ m ∈ mask, m = 0 ∨ m = 1) (hlen : mask.length = hidden.length)
    (hdim : ∀ v ∈ hidden, v.length = d) :
    Server.poolMasked d mask hidden = specMaskedMean d mask hidden ∧
    Generate.poolMasked d mask hidden = specMaskedMean d mask hidden := by
  have key : Server.poolMasked d mask hidden = specMaskedMean d mask hidden := by
    simp only [Server.poolMasked, specMaskedMean]
    rw [maskedSum_eq_selected d mask hidden h01 hlen hdim,
      castSum_eq_count mask h01]
  exact ⟨key, key⟩

/-- Witness for C3 at a concrete mask and hidden-state tensor. -/
theorem claim_C3_w :
    (∀ m ∈ ([1, 0] : List ℕ), m = 0 ∨ m = 1) ∧
    ([1, 0] : List ℕ).length = ([[2], [5]] : List (List ℝ)).length ∧
    (∀ v ∈ ([[2], [5]] : List (List ℝ)), v.length = 1) ∧
    (Server.poolMasked 1 [1, 0] [[2], [5]] =
        specMaskedMean 1 [1, 0] [[2], [5]] ∧
      Generate.poolMasked 1 [1, 0] [[2], [5]] =
        specMaskedMean 1 [1, 0] [[2], [5]]) := by
  have h01 : ∀ m ∈ ([1, 0] : List ℕ), m = 0 ∨ m = 1 := by decide
  have hlen : ([1, 0] : List ℕ).length =
      ([[2], [5]] : List (List ℝ)).length := rfl
  have hdim : ∀ v ∈ ([[2], [5]] : List (List ℝ)), v.length = 1 := by
    intro v hv
    simp only [List.mem_cons, List.not_mem_nil, or_false] at hv
    rcases hv with rfl | rfl <;> rfl
  exact ⟨h01, hlen, hdim, claim_C3 1 [1, 0] [[2], [5]] h01 hlen hdim⟩

/-- Claim C4: for every input list and positive batch_size, the pipeline
partitions the input into contiguous sub-batches of exactly batch_size
elements except possibly a smaller final one, preserving order (their
concatenation is the input), and the loop processes exactly those sub-batches
sequentially in that order. -/
theorem claim_C4 (texts : List String) (bs : ℤ) (hbs : 0 < bs) :
    ∃ cs : List (List String),
      pyChunks texts bs = .ok cs ∧
      cs.flatten = texts ∧
      (∀ c ∈ cs, c.length ≤ bs.toNat) ∧
      (∀ c ∈ cs.dropLast, c.length = bs.toNat) ∧
      ∀ (H : Handle), Server.embedLoop H texts bs = Server.loopBatches H cs := by
  refine ⟨chunksRec bs.toNat texts, pyChunks_pos texts bs hbs,
    chunksGo_flatten bs.toNat (by omega) texts.length texts le_rfl,
    fun c hc => chunksGo_le bs.toNat texts.length texts c hc,
    fun c hc => chunksGo_dropLast_len bs.toNat texts.length texts c hc, ?_⟩
  intro H
  simp only [Server.embedLoop]
  rw [pyChunks_pos texts bs hbs]

/-- Witness for C4 at a concrete input and batch size. -/
theorem claim_C4_w :
    (0 : ℤ) < 2 ∧
    ∃ cs : List (List String),
      pyChunks (["a", "b", "c"] : List String) 2 = .ok cs ∧
      cs.flatten = ["a", "b", "c"] ∧
      (∀ c ∈ cs, c.length ≤ (2 : ℤ).toNat) ∧
      (∀ c ∈ cs.dropLast, c.length = (2 : ℤ).toNat) ∧
      ∀ (H : Handle), Server.embedLoop H ["a", "b", "c"] 2 =
        Server.loopBatches H cs :=
  ⟨by norm_num, claim_C4 ["a", "b", "c"] 2 (by norm_num)⟩

/-- Claim C5: the pipeline's result is invariant in the (positive) batch size:
splitting the same input under different batch sizes yields the same vectors,
because truncation, masked pooling and normalization are computed per sequence
(given the model's padding-invariance contract). -/
theorem claim_C5 (H : Handle) (f : List ℕ → List (List ℝ))
    (g : List ℕ → ℕ → List (List ℝ)) (hG : GoodForward H)
    (hP : PadInvariant H f g) (hm : H.hasMask = true)
    (texts : List String) (bs bs' : ℤ) (hbs : 0 < bs) (hbs' : 0 < bs') :
    Server.embedLoop H texts bs = Server.embedLoop H texts bs' ∧
    Generate.generate_embeddings H texts bs =
      Generate.generate_embeddings H texts bs' := by
  have h1 := Server_embedLoop_ok H f g hG hP hm texts bs hbs
  have h2 := Server_embedLoop_ok H f g hG hP hm texts bs' hbs'
  constructor
  · rw [h1, h2]
  · rw [gen_embedLoop_eq, gen_embedLoop_eq, h1, h2]

/-- Witness for C5: batch sizes 1 and 2 on a three-element input. -/
theorem claim_C5_w :
    (0 : ℤ) < 1 ∧ (0 : ℤ) < 2 ∧
    (Server.embedLoop Hc ["a", "b", "c"] 1 =
        Server.embedLoop Hc ["a", "b", "c"] 2 ∧
      Generate.generate_embeddings Hc ["a", "b", "c"] 1 =
        Generate.generate_embeddings Hc ["a", "b", "c"] 2) :=
  ⟨by norm_num, by norm_num,
    claim_C5 Hc fc gc Hc_good Hc_pad rfl ["a", "b", "c"] 1 2 (by norm_num)
      (by norm_num)⟩

/-- Claim C6: an empty-input call raises an input error without invoking the
model: the service answers HTTP 400 "Input cannot be empty" for every loaded
handle, and the CLI prints the error object and exits non-zero for every
possible `load_model` behavior — the model is not even loaded. -/
theorem claim_C6 (H : Handle) (bs : ℤ) (load : Unit → Except String Handle) :
    Server.embeddings (some H) ⟨[], bs⟩ =
      .error ⟨400, "Input cannot be empty"⟩ ∧
    Generate.mainRun load [] bs =
      .err "Input must contain 'input' array of strings" ∧
    (Generate.mainRun load [] bs).exitCode = 1 :=
  ⟨rfl, rfl, rfl⟩

/-- Claim C7: any fault raised while processing any sub-batch aborts the whole
call: the service reports HTTP 500 carrying the fault's description and the CLI
function propagates the fault, with no partial embeddings — otherwise the
complete vector sequence (one per input) is returned (all-or-nothing). -/
theorem claim_C7 (H : Handle) (texts : List String) (bs : ℤ)
    (hne : texts ≠ []) (hbs : 0 < bs) :
    (∃ e, Server.embedLoop H texts bs = .error e ∧
      Server.embeddings (some H) ⟨texts, bs⟩ = .error ⟨500, e⟩ ∧
      Generate.generate_embeddings H texts bs = .error e) ∨
    (∃ l, Server.embedLoop H texts bs = .ok l ∧ l.length = texts.length ∧
      Generate.generate_embeddings H texts bs = .ok l ∧
      ∃ resp, Server.embeddings (some H) ⟨texts, bs⟩ = .ok resp ∧
        resp.embeddings = l) := by
  cases hres : Server.embedLoop H texts bs with
  | error e =>
    left
    refine ⟨e, rfl, ?_, ?_⟩
    · simp only [Server.embeddings]
      rw [if_neg hne, hres]
    · rw [gen_embedLoop_eq, hres]
  | ok l =>
    right
    refine ⟨l, rfl, Server_embedLoop_ok_length H texts bs hbs l hres, ?_, ?_⟩
    · rw [gen_embedLoop_eq, hres]
    · simp only [Server.embeddings]
      rw [if_neg hne, hres]
      exact ⟨_, rfl, rfl⟩

/-- Witness for C7 at a concrete handle and input. -/
theorem claim_C7_w :
    (["a"] : List String) ≠ [] ∧ (0 : ℤ) < 1 ∧
    ((∃ e, Server.embedLoop Hc ["a"] 1 = .error e ∧
        Server.embeddings (some Hc) ⟨["a"], 1⟩ = .error ⟨500, e⟩ ∧
        Generate.generate_embeddings Hc ["a"] 1 = .error e) ∨
      (∃ l, Server.embedLoop Hc ["a"] 1 = .ok l ∧
        l.length = (["a"] : List String).length ∧
        Generate.generate_embeddings Hc ["a"] 1 = .ok l ∧
        ∃ resp, Server.embeddings (some Hc) ⟨["a"], 1⟩ = .ok resp ∧
          resp.embeddings = l)) :=
  ⟨by simp, by norm_num, claim_C7 Hc ["a"] 1 (by simp) (by norm_num)⟩

/-- Claim C8: given the same handle, input list and batch size, the service
endpoint's transformation and the standalone CLI's transformation compute the
same function — the loop bodies are verbatim duplicates. -/
theorem claim_C8 (H : Handle) (texts : List String) (bs : ℤ)
    (batch : List String) :
    Generate.generate_embeddings H texts bs = Server.embedLoop H texts bs ∧
    Generate.batchEmbs H batch = Server.batchEmbs H batch ∧
    Generate.poolMasked = Server.poolMasked ∧
    Generate.poolMean = Server.poolMean :=
  ⟨gen_embedLoop_eq H texts bs, rfl, rfl, rfl⟩

/-- Claim C9: if the tokenizer output carries no attention mask, both
implementations silently fall back to an unmasked simple mean over all token
positions (padding included) instead of masked mean pooling. -/
theorem claim_C9 (H : Handle) (F : List ℕ → List ℕ → List (List ℝ))
    (hm : H.hasMask = false)
    (hfwd : ∀ ids mask, H.forward ids mask = .ok (F ids mask))
    (batch : List String) :
    Server.batchEmbs H batch =
      .ok ((((tokenizeBatch H batch).1).zip ((tokenizeBatch H batch).2)).map
        fun pr => l2normalize (Server.poolMean H.dim (F pr.1 pr.2))) ∧
    Generate.batchEmbs H batch =
      .ok ((((tokenizeBatch H batch).1).zip ((tokenizeBatch H batch).2)).map
        fun pr => l2normalize (Generate.poolMean H.dim (F pr.1 pr.2))) := by
  have key := Server_batchEmbs_nomask H F hm hfwd batch
  exact ⟨key, key⟩

/-- Witness for C9 at a concrete mask-less handle. -/
theorem claim_C9_w :
    Hn.hasMask = false ∧
    (∀ ids mask, Hn.forward ids mask = .ok (Fn ids mask)) ∧
    (Server.batchEmbs Hn ["a"] =
      .ok ((((tokenizeBatch Hn ["a"]).1).zip ((tokenizeBatch Hn ["a"]).2)).map
        fun pr => l2normalize (Server.poolMean Hn.dim (Fn pr.1 pr.2))) ∧
    Generate.batchEmbs Hn ["a"] =
      .ok ((((tokenizeBatch Hn ["a"]).1).zip ((tokenizeBatch Hn ["a"]).2)).map
        fun pr => l2normalize (Generate.poolMean Hn.dim (Fn pr.1 pr.2)))) :=
  ⟨rfl, fun _ _ => rfl, claim_C9 Hn Fn rfl (fun _ _ => rfl) ["a"]⟩

/-- Claim C10: neither entry point validates that batch_size is positive.
With a non-empty input and a negative batch_size the Python range is empty, so
the call succeeds with `embeddings = []` and `dimension = 0` (violating the
output-count guarantee); with batch_size = 0, `range` raises, which is
reported as an inference failure (HTTP 500 / "Failed to generate embeddings"),
not as an input error. -/
theorem claim_C10 (H : Handle) (texts : List String) (hne : texts ≠ [])
    (bs : ℤ) (hneg : bs < 0) :
    Server.embeddings (some H) ⟨texts, bs⟩ =
      .ok ⟨[], Server.MODEL_NAME, 0⟩ ∧
    Generate.mainRun (fun _ => .ok H) texts bs =
      .ok [] Generate.MODEL_NAME 0 ∧
    Server.embeddings (some H) ⟨texts, 0⟩ =
      .error ⟨500, "range() arg 3 must not be zero"⟩ ∧
    Generate.mainRun (fun _ => .ok H) texts 0 =
      .err "Failed to generate embeddings: range() arg 3 must not be zero" := by
  have hflow : Server.embedLoop H texts bs = .ok [] := by
    simp only [Server.embedLoop, pyChunks, pyRange]
    rw [if_neg (by omega), if_pos hneg]
    rfl
  have hzero : Server.embedLoop H texts 0 =
      .error "range() arg 3 must not be zero" := by
    simp [Server.embedLoop, pyChunks, pyRange]
  refine ⟨?_, ?_, ?_, ?_⟩
  · simp only [Server.embeddings]
    rw [if_neg hne, hflow]
  · simp only [Generate.mainRun]
    rw [if_neg hne, gen_embedLoop_eq, hflow]
  · simp only [Server.embeddings]
    rw [if_neg hne, hzero]
  · simp only [Generate.mainRun]
    rw [if_neg hne, gen_embedLoop_eq, hzero]
    rfl

/-- Witness for C10 at a concrete handle, input and negative batch size. -/
theorem claim_C10_w :
    (["a"] : List String) ≠ [] ∧ (-5 : ℤ) < 0 ∧
    (Server.embeddings (some Hc) ⟨["a"], -5⟩ =
        .ok ⟨[], Server.MODEL_NAME, 0⟩ ∧
      Generate.mainRun (fun _ => .ok Hc) ["a"] (-5) =
        .ok [] Generate.MODEL_NAME 0 ∧
      Server.embeddings (some Hc) ⟨["a"], 0⟩ =
        .error ⟨500, "range() arg 3 must not be zero"⟩ ∧
      Generate.mainRun (fun _ => .ok Hc) ["a"] 0 =
        .err "Failed to generate embeddings: range() arg 3 must not be zero") :=
  ⟨by simp, by norm_num, claim_C10 Hc ["a"] (by simp) (-5) (by norm_num)⟩
